import Mathlib

/-!
Lucky draw engine: formalisation of the draw/round progression state machine.

Shallow embedding of the draw engine of `src/App.jsx` (the `App` component):
the number pool, the round plan (`steps`), the history ledger, and the
timer-driven spin/commit/transition cycle.

Timers are modelled explicitly: `pendingTick` stands for the live 120 ms tick
interval (`intervalRef`), `pendingStop` for the scheduled 3000 ms spin timeout
(`timerRef`), and `pendingTransition` for the anonymous 2000 ms round-transition
`setTimeout` together with the `currentStepIndex` value captured by its closure.
Randomness (`Math.floor(Math.random() * len)`) is passed in as an index argument
bounded by the pool length, and `new Date()` as a numeric timestamp.
-/

namespace LuckyDraw

/-- A configured round: `{ id, name, count }` in the `steps` state of `App.jsx`.
`count` is the parsed value of the round's Qty field (`parseInt(step.count)`). -/
structure Step where
  id : Nat
  name : String
  count : Nat
deriving DecidableEq, Repr

/-- A committed winner: the `winRecord` object built in `stopSpin`. -/
structure WinRecord where
  number : Int
  stepId : Nat
  stepName : String
  timestamp : Nat
deriving DecidableEq, Repr

/-- The value shown in the wheel's centre: `currentNumber` is `null` on mount,
the placeholder string `"?"` after initialisation, or a number. -/
inductive Display where
  | null : Display
  | placeholder : Display
  | num : Int → Display
deriving DecidableEq, Repr

/-- The engine state: the React state of `App` that the draw engine reads and
writes, plus the three pending-timer fields described in the module docstring. -/
structure EngineState where
  availableNumbers : List Int
  history : List WinRecord
  currentNumber : Display
  isSpinning : Bool
  winner : Option Int
  currentStepIndex : Nat
  isTransitioning : Bool
  pendingTick : Bool
  pendingStop : Bool
  pendingTransition : Option Nat
deriving DecidableEq, Repr

/-- The component's state on mount, before any initialisation. -/
def mountState : EngineState where
  availableNumbers := []
  history := []
  currentNumber := .null
  isSpinning := false
  winner := none
  currentStepIndex := 0
  isTransitioning := false
  pendingTick := false
  pendingStop := false
  pendingTransition := none

/-- `steps.reduce((sum, step) => sum + parseInt(step.count), 0)` in
`initializeNumbers`. -/
def totalWinnersNeeded (steps : List Step) : Nat :=
  steps.foldl (fun sum st => sum + st.count) 0

/-- `max - min + 1` in `initializeNumbers`; over `Int`, so an inverted range
yields a non-positive size, exactly as in JavaScript arithmetic. -/
def totalAvailable (min max : Int) : Int :=
  max - min + 1

/-- The pool built by `for (let i = min; i <= max; i++) nums.push(i)`. -/
def rangePool (min max : Int) : List Int :=
  (List.range (totalAvailable min max).toNat).map (fun i : Nat => min + (i : Int))

/-- The guard `totalWinnersNeeded > totalAvailable` that raises the
insufficient-pool alert in `initializeNumbers`. -/
def insufficientPool (min max : Int) (steps : List Step) : Bool :=
  decide (totalAvailable min max < (totalWinnersNeeded steps : Int))

/-- `initializeNumbers` (also the `Reset Game` button's handler): on the guard
failure it alerts and returns with no state change; otherwise it rebuilds the
pool, clears history and winner, shows the `"?"` placeholder, and returns to
round 0 with no transition in progress.  It contains no `clearInterval` or
`clearTimeout`, so the pending-timer fields are carried over unchanged. -/
def initializeNumbers (min max : Int) (steps : List Step) (s : EngineState) :
    EngineState :=
  if insufficientPool min max steps then s
  else
    { s with
      availableNumbers := rangePool min max
      history := []
      winner := none
      currentNumber := .placeholder
      currentStepIndex := 0
      isTransitioning := false }

/-- `handleSpin`: the three explicit guards (empty pool, all rounds done,
transitioning), then start the spin: set `isSpinning`, clear `winner`, start
the 120 ms tick interval and schedule the 3000 ms `stopSpin` timeout.
Note `handleSpin` itself does not test `isSpinning`. -/
def handleSpin (steps : List Step) (s : EngineState) : EngineState :=
  if s.availableNumbers.length = 0 then s
  else if steps.length ≤ s.currentStepIndex then s
  else if s.isTransitioning then s
  else
    { s with
      isSpinning := true
      winner := none
      pendingTick := true
      pendingStop := true }

/-- The `disabled` expression of the SPIN button:
`isSpinning || isTransitioning || availableNumbers.length === 0 || isGameFinished`
where `isGameFinished` is `currentStepIndex >= steps.length`. -/
def spinDisabled (steps : List Step) (s : EngineState) : Bool :=
  s.isSpinning || s.isTransitioning || s.availableNumbers.length == 0 ||
    decide (steps.length ≤ s.currentStepIndex)

/-- A user click on the SPIN button: a disabled button does not fire `onClick`,
otherwise the click runs `handleSpin`.  This is the engine's `startSpin` intent. -/
def spinClick (steps : List Step) (s : EngineState) : EngineState :=
  if spinDisabled steps s then s else handleSpin steps s

/-- Placeholder for `steps[currentStepIndex]` when the index is in range; the
code never reads it out of range. -/
def defaultStep : Step where
  id := 0
  name := ""
  count := 0

/-- The record used when reading the head of an empty history. -/
def defaultRecord : WinRecord where
  number := 0
  stepId := 0
  stepName := ""
  timestamp := 0

/-- `history.filter(h => h.stepId === id).length`: the number of committed
winners recorded for the round with the given id. -/
def histCount (history : List WinRecord) (stepId : Nat) : Nat :=
  (history.filter (fun h => h.stepId == stepId)).length

/-- The unconditional part of `stopSpin` (fired by the 3000 ms timeout): clear
the tick interval and the spin timeout, draw the final winner
`availableNumbers[Math.floor(Math.random() * length)]` at random index `r`,
record it (prepended, newest first), remove it from the pool
(`availableNumbers.filter(n => n !== winningNumber)`), and stop spinning. -/
def stopSpinBase (steps : List Step) (r now : Nat) (s : EngineState) : EngineState :=
  { s with
    pendingTick := false
    pendingStop := false
    winner := some (s.availableNumbers.getD r 0)
    currentNumber := .num (s.availableNumbers.getD r 0)
    history :=
      { number := s.availableNumbers.getD r 0
        stepId := (steps.getD s.currentStepIndex defaultStep).id
        stepName := (steps.getD s.currentStepIndex defaultStep).name
        timestamp := now } :: s.history
    availableNumbers :=
      s.availableNumbers.filter (fun n => n != s.availableNumbers.getD r 0)
    isSpinning := false }

/-- `stopSpin`: the commit, then the round-completion check.  If the
post-commit count `history.filter(h => h.stepId === currentStep.id).length + 1`
reaches `parseInt(currentStep.count)`, set `isTransitioning` and schedule the
2000 ms transition timeout, whose closure captures `currentStepIndex`. -/
def stopSpin (steps : List Step) (r now : Nat) (s : EngineState) : EngineState :=
  if (steps.getD s.currentStepIndex defaultStep).count ≤
      histCount s.history (steps.getD s.currentStepIndex defaultStep).id + 1 then
    { stopSpinBase steps r now s with
      isTransitioning := true
      pendingTransition := some s.currentStepIndex }
  else stopSpinBase steps r now s

/-- The 2000 ms transition timeout firing with captured index `i`: if
`i < steps.length - 1` set the index to the captured `i + 1`, else apply the
functional update `prev => prev + 1` to the index at firing time; either way
clear `isTransitioning`.  The timeout is consumed. -/
def transitionFire (steps : List Step) (i : Nat) (s : EngineState) : EngineState :=
  if i < steps.length - 1 then
    { s with currentStepIndex := i + 1, isTransitioning := false, pendingTransition := none }
  else
    { s with currentStepIndex := s.currentStepIndex + 1, isTransitioning := false,
             pendingTransition := none }

/-- One firing of the 120 ms tick interval: show a random pool element; purely
visual, no commit. -/
def tickFire (j : Nat) (s : EngineState) : EngineState :=
  { s with currentNumber := .num (s.availableNumbers.getD j 0) }

/-- The unmount cleanup (`useEffect` return): `clearInterval(intervalRef)` and
`clearTimeout(timerRef)`.  The 2000 ms transition timeout is stored in no ref
and is not cleared. -/
def teardownCleanup (s : EngineState) : EngineState :=
  { s with pendingTick := false, pendingStop := false }

/-- The `Reset Game` button's `onClick` is `initializeNumbers` itself. -/
def resetGame (min max : Int) (steps : List Step) (s : EngineState) : EngineState :=
  initializeNumbers min max steps s

/-- One engine step during play: a SPIN click, the spin timeout committing a
draw at random pool index `r` and time `now`, a cosmetic tick, or the round
transition timeout firing.  Timer-driven steps require their timer pending. -/
inductive GameStep (steps : List Step) : EngineState → EngineState → Prop where
  | spin (s : EngineState) : GameStep steps s (spinClick steps s)
  | commit (s : EngineState) (r now : Nat) :
      s.pendingStop = true → r < s.availableNumbers.length →
      GameStep steps s (stopSpin steps r now s)
  | tick (s : EngineState) (j : Nat) :
      s.pendingTick = true → j < s.availableNumbers.length →
      GameStep steps s (tickFire j s)
  | roundTimeout (s : EngineState) (i : Nat) :
      s.pendingTransition = some i →
      GameStep steps s (transitionFire steps i s)

/-- States reachable in one game: a successful `initializeNumbers` from the
mount state followed by any number of engine steps. -/
inductive Reachable (min max : Int) (steps : List Step) : EngineState → Prop where
  | init : insufficientPool min max steps = false →
      Reachable min max steps (initializeNumbers min max steps mountState)
  | step {s t : EngineState} : Reachable min max steps s → GameStep steps s t →
      Reachable min max steps t

/-! Invariant predicates proved below to hold at every reachable state. -/

structure InvNum (s : EngineState) : Prop where
  poolNodup : s.availableNumbers.Nodup
  histNodup : (s.history.map WinRecord.number).Nodup
  disj : ∀ n ∈ s.history.map WinRecord.number, n ∉ s.availableNumbers

structure InvStruct (steps : List Step) (s : EngineState) : Prop where
  idxLe : s.currentStepIndex ≤ steps.length
  transIff : s.isTransitioning = s.pendingTransition.isSome
  pendTransIdx : ∀ i, s.pendingTransition = some i → i = s.currentStepIndex
  pendTransLt : ∀ i, s.pendingTransition = some i →
    s.currentStepIndex < steps.length
  pendTransCount : ∀ i, s.pendingTransition = some i →
    (steps.getD i defaultStep).count ≤
      histCount s.history (steps.getD i defaultStep).id
  pendStopSpin : s.pendingStop = true → s.isSpinning = true
  pendStopIdx : s.pendingStop = true → s.currentStepIndex < steps.length
  pendStopTrans : s.pendingStop = true → s.isTransitioning = false
  pendStopPool : s.pendingStop = true → s.availableNumbers ≠ []

structure InvCounts (steps : List Step) (s : EngineState) : Prop where
  past : ∀ j, j < s.currentStepIndex → j < steps.length →
    histCount s.history (steps.getD j defaultStep).id ≤
      (steps.getD j defaultStep).count
  future : ∀ j, s.currentStepIndex < j → j < steps.length →
    histCount s.history (steps.getD j defaultStep).id = 0
  currentTrans : s.currentStepIndex < steps.length → s.isTransitioning = true →
    histCount s.history (steps.getD s.currentStepIndex defaultStep).id ≤
      (steps.getD s.currentStepIndex defaultStep).count
  currentReady : s.currentStepIndex < steps.length → s.isTransitioning = false →
    histCount s.history (steps.getD s.currentStepIndex defaultStep).id <
      (steps.getD s.currentStepIndex defaultStep).count

/-! Concrete configurations and runs used to instantiate the theorems. -/

/-- One round of one winner over the pool `[1, 2]`. -/
def exSteps : List Step := [{ id := 1, name := "Round 1", count := 1 }]

def exInit : EngineState := initializeNumbers 1 2 exSteps mountState

def exSpin : EngineState := spinClick exSteps exInit

def exCommit : EngineState := stopSpin exSteps 0 5 exSpin

/-- One round whose Qty field was set to `0`, over the pool `[1, 1]`. -/
def zeroSteps : List Step := [{ id := 1, name := "Round 1", count := 0 }]

def zInit : EngineState := initializeNumbers 1 1 zeroSteps mountState

def zCommit : EngineState := stopSpin zeroSteps 0 7 (spinClick zeroSteps zInit)

/-- A configuration whose one round requires more winners than the range
`[1, 3]` holds. -/
def rejSteps : List Step := [{ id := 1, name := "Round 1", count := 5 }]

/-! Basic facts about the pool and the operations -/

theorem mem_rangePool {min max n : Int} :
    n ∈ rangePool min max ↔ min ≤ n ∧ n ≤ max := by
  unfold rangePool totalAvailable
  rw [List.mem_map]
  constructor
  · rintro ⟨i, hi, rfl⟩
    rw [List.mem_range] at hi
    omega
  · rintro ⟨h1, h2⟩
    refine ⟨(n - min).toNat, ?_, ?_⟩
    · rw [List.mem_range]
      omega
    · omega

theorem rangePool_nodup (min max : Int) : (rangePool min max).Nodup :=
  List.Nodup.map (fun a b h => by omega) (List.nodup_range _)

theorem getD_mem_of_lt {α : Type} {l : List α} {d : α} {r : Nat}
    (h : r < l.length) : l.getD r d ∈ l := by
  rw [List.getD_eq_getElem?_getD, List.getElem?_eq_getElem h]
  exact List.getElem_mem h

theorem filter_ne_eq_erase {l : List Int} {w : Int} (hnd : l.Nodup) :
    l.filter (fun n => n != w) = l.erase w := by
  rw [List.Nodup.erase_eq_filter hnd]

theorem histCount_cons (rec : WinRecord) (h : List WinRecord) (i : Nat) :
    histCount (rec :: h) i = histCount h i + (if rec.stepId = i then 1 else 0) := by
  by_cases hid : rec.stepId = i <;> simp [histCount, List.filter_cons, hid]

theorem stopSpinBase_history (steps : List Step) (r now : Nat) (s : EngineState) :
    (stopSpinBase steps r now s).history =
      { number := s.availableNumbers.getD r 0
        stepId := (steps.getD s.currentStepIndex defaultStep).id
        stepName := (steps.getD s.currentStepIndex defaultStep).name
        timestamp := now } :: s.history := rfl

theorem stopSpinBase_pool (steps : List Step) (r now : Nat) (s : EngineState) :
    (stopSpinBase steps r now s).availableNumbers =
      s.availableNumbers.filter (fun n => n != s.availableNumbers.getD r 0) := rfl

/-- Either a SPIN click is ignored, or all four guard conditions hold and the
click starts the spin. -/
theorem spinClick_cases (steps : List Step) (s : EngineState) :
    spinClick steps s = s ∨
    (s.isSpinning = false ∧ s.isTransitioning = false ∧
     s.availableNumbers ≠ [] ∧ s.currentStepIndex < steps.length ∧
     spinClick steps s =
       { s with isSpinning := true, winner := none,
                pendingTick := true, pendingStop := true }) := by
  by_cases hd : spinDisabled steps s = true
  · left
    simp [spinClick, hd]
  · right
    have hd' := hd
    simp only [spinDisabled, Bool.or_eq_true, decide_eq_true_eq, beq_iff_eq,
      not_or, Bool.not_eq_true] at hd'
    obtain ⟨⟨⟨h1, h2⟩, h3⟩, h4⟩ := hd'
    have hne : s.availableNumbers ≠ [] := by
      intro h
      exact h3 (by simp [h])
    refine ⟨h1, h2, hne, by omega, ?_⟩
    simp [spinClick, hd, handleSpin, h3, h2, Nat.not_le.mpr (by omega : s.currentStepIndex < steps.length)]

/-! Number uniqueness invariant

The pool never repeats a number, committed numbers never repeat, and committed
numbers are no longer in the pool. -/

theorem invNum_initialize (min max : Int) (steps : List Step) {s : EngineState}
    (h : InvNum s) : InvNum (initializeNumbers min max steps s) := by
  unfold initializeNumbers
  split
  · exact h
  · exact ⟨rangePool_nodup min max, by simp, by simp⟩

theorem invNum_mount : InvNum mountState :=
  ⟨by simp [mountState], by simp [mountState], by simp [mountState]⟩

theorem invNum_spinClick (steps : List Step) {s : EngineState} (h : InvNum s) :
    InvNum (spinClick steps s) := by
  rcases spinClick_cases steps s with heq | ⟨_, _, _, _, heq⟩ <;>
    rw [heq] <;> exact ⟨h.poolNodup, h.histNodup, h.disj⟩

theorem invNum_tickFire (j : Nat) {s : EngineState} (h : InvNum s) :
    InvNum (tickFire j s) :=
  ⟨h.poolNodup, h.histNodup, h.disj⟩

theorem invNum_transitionFire (steps : List Step) (i : Nat) {s : EngineState}
    (h : InvNum s) : InvNum (transitionFire steps i s) := by
  unfold transitionFire
  split <;> exact ⟨h.poolNodup, h.histNodup, h.disj⟩

theorem invNum_stopSpin (steps : List Step) (r now : Nat) {s : EngineState}
    (h : InvNum s) (hr : r < s.availableNumbers.length) :
    InvNum (stopSpin steps r now s) := by
  have hwmem : s.availableNumbers.getD r 0 ∈ s.availableNumbers := getD_mem_of_lt hr
  have hbase : InvNum (stopSpinBase steps r now s) := by
    refine ⟨?_, ?_, ?_⟩
    · exact List.Nodup.filter _ h.poolNodup
    · simp only [stopSpinBase, List.map_cons]
      refine List.nodup_cons.mpr ⟨?_, h.histNodup⟩
      intro hmem
      exact h.disj _ hmem hwmem
    · simp only [stopSpinBase, List.map_cons, List.mem_cons]
      rintro n (rfl | hmem) hnmem
      · rw [List.mem_filter] at hnmem
        simp at hnmem
      · rw [List.mem_filter] at hnmem
        exact h.disj n hmem hnmem.1
  unfold stopSpin
  split
  · exact ⟨hbase.poolNodup, hbase.histNodup, hbase.disj⟩
  · exact hbase

theorem invNum_reachable {min max : Int} {steps : List Step} {s : EngineState}
    (h : Reachable min max steps s) : InvNum s := by
  induction h with
  | init _ => exact invNum_initialize min max steps invNum_mount
  | step _ hstep ih =>
    cases hstep with
    | spin => exact invNum_spinClick steps ih
    | commit r now _ hr => exact invNum_stopSpin steps r now ih hr
    | tick j _ _ => exact invNum_tickFire j ih
    | roundTimeout i _ => exact invNum_transitionFire steps i ih

/-! Structural invariant: timers, the transitioning flag and the round index

`pendingTransition` always carries the current round index, set only when that
round's post-commit count reached its requirement; a scheduled spin timeout
implies an active, non-transitioning spin with a non-empty pool. -/

theorem invStruct_init (min max : Int) (steps : List Step)
    (h : insufficientPool min max steps = false) :
    InvStruct steps (initializeNumbers min max steps mountState) := by
  unfold initializeNumbers
  rw [h]
  exact
    { idxLe := by simp [mountState]
      transIff := by simp [mountState]
      pendTransIdx := by simp [mountState]
      pendTransLt := by simp [mountState]
      pendTransCount := by simp [mountState]
      pendStopSpin := by simp [mountState]
      pendStopIdx := by simp [mountState]
      pendStopTrans := by simp [mountState]
      pendStopPool := by simp [mountState] }

theorem invStruct_spinClick (steps : List Step) {s : EngineState}
    (h : InvStruct steps s) : InvStruct steps (spinClick steps s) := by
  rcases spinClick_cases steps s with heq | ⟨h1, h2, h3, h4, heq⟩
  · rw [heq]; exact h
  · rw [heq]
    exact
      { idxLe := h.idxLe
        transIff := h.transIff
        pendTransIdx := h.pendTransIdx
        pendTransLt := h.pendTransLt
        pendTransCount := h.pendTransCount
        pendStopSpin := fun _ => rfl
        pendStopIdx := fun _ => h4
        pendStopTrans := fun _ => h2
        pendStopPool := fun _ => h3 }

theorem invStruct_tickFire (steps : List Step) (j : Nat) {s : EngineState}
    (h : InvStruct steps s) : InvStruct steps (tickFire j s) :=
  { idxLe := h.idxLe
    transIff := h.transIff
    pendTransIdx := h.pendTransIdx
    pendTransLt := h.pendTransLt
    pendTransCount := h.pendTransCount
    pendStopSpin := h.pendStopSpin
    pendStopIdx := h.pendStopIdx
    pendStopTrans := h.pendStopTrans
    pendStopPool := h.pendStopPool }

theorem invStruct_stopSpin (steps : List Step) (r now : Nat) {s : EngineState}
    (h : InvStruct steps s) (hps : s.pendingStop = true) :
    InvStruct steps (stopSpin steps r now s) := by
  have htr : s.isTransitioning = false := h.pendStopTrans hps
  have hpt : s.pendingTransition = none := by
    have := h.transIff
    rw [htr] at this
    cases hp : s.pendingTransition with
    | none => rfl
    | some i => rw [hp] at this; simp at this
  have hidx : s.currentStepIndex < steps.length := h.pendStopIdx hps
  unfold stopSpin
  split
  case isTrue hc =>
    exact
      { idxLe := h.idxLe
        transIff := rfl
        pendTransIdx := by
          intro i hi
          simp only [stopSpinBase] at hi
          simpa using hi.symm
        pendTransLt := fun i _ => hidx
        pendTransCount := by
          intro i hi
          simp only [stopSpinBase, Option.some_inj] at hi
          subst hi
          rw [stopSpinBase_history, histCount_cons, if_pos rfl]
          omega
        pendStopSpin := by intro hfalse; simp [stopSpinBase] at hfalse
        pendStopIdx := by intro hfalse; simp [stopSpinBase] at hfalse
        pendStopTrans := by intro hfalse; simp [stopSpinBase] at hfalse
        pendStopPool := by intro hfalse; simp [stopSpinBase] at hfalse }
  case isFalse hc =>
    exact
      { idxLe := h.idxLe
        transIff := by simp [stopSpinBase, htr, hpt]
        pendTransIdx := by intro i hi; simp only [stopSpinBase] at hi; rw [hpt] at hi; cases hi
        pendTransLt := by intro i hi; simp only [stopSpinBase] at hi; rw [hpt] at hi; cases hi
        pendTransCount := by intro i hi; simp only [stopSpinBase] at hi; rw [hpt] at hi; cases hi
        pendStopSpin := by intro hfalse; simp [stopSpinBase] at hfalse
        pendStopIdx := by intro hfalse; simp [stopSpinBase] at hfalse
        pendStopTrans := by intro hfalse; simp [stopSpinBase] at hfalse
        pendStopPool := by intro hfalse; simp [stopSpinBase] at hfalse }

theorem invStruct_transitionFire (steps : List Step) (i : Nat) {s : EngineState}
    (h : InvStruct steps s) (hp : s.pendingTransition = some i) :
    InvStruct steps (transitionFire steps i s) := by
  have hi : i = s.currentStepIndex := h.pendTransIdx i hp
  have hlt : s.currentStepIndex < steps.length := h.pendTransLt i hp
  have hnostop : s.pendingStop = false := by
    by_contra hps
    rw [Bool.not_eq_false] at hps
    have := h.pendStopTrans hps
    rw [h.transIff, hp] at this
    simp at this
  unfold transitionFire
  split <;>
    exact
      { idxLe := by simp; omega
        transIff := rfl
        pendTransIdx := by intro k hk; cases hk
        pendTransLt := by intro k hk; cases hk
        pendTransCount := by intro k hk; cases hk
        pendStopSpin := fun hps =>
          absurd (show s.pendingStop = true from hps) (by simp [hnostop])
        pendStopIdx := fun hps =>
          absurd (show s.pendingStop = true from hps) (by simp [hnostop])
        pendStopTrans := fun hps =>
          absurd (show s.pendingStop = true from hps) (by simp [hnostop])
        pendStopPool := fun hps =>
          absurd (show s.pendingStop = true from hps) (by simp [hnostop]) }

theorem invStruct_reachable {min max : Int} {steps : List Step} {s : EngineState}
    (h : Reachable min max steps s) : InvStruct steps s := by
  induction h with
  | init hok => exact invStruct_init min max steps hok
  | step _ hstep ih =>
    cases hstep with
    | spin => exact invStruct_spinClick steps ih
    | commit r now hps _ => exact invStruct_stopSpin steps r now ih hps
    | tick j _ _ => exact invStruct_tickFire steps j ih
    | roundTimeout i hp => exact invStruct_transitionFire steps i ih hp

/-! Round capacity invariant

Under the data-model assumptions on the round plan — ids are unique and every
`requiredCount` is a positive integer — no round's history count ever exceeds
its requirement. -/

theorem getD_eq_getElem {α : Type} {l : List α} {d : α} {j : Nat}
    (h : j < l.length) : l.getD j d = l[j] := by
  rw [List.getD_eq_getElem?_getD, List.getElem?_eq_getElem h]
  rfl

theorem getD_id_ne {steps : List Step} (hids : (steps.map Step.id).Nodup)
    {j k : Nat} (hj : j < steps.length) (hk : k < steps.length) (hne : j ≠ k) :
    (steps.getD j defaultStep).id ≠ (steps.getD k defaultStep).id := by
  rw [getD_eq_getElem hj, getD_eq_getElem hk]
  intro h
  apply hne
  have hmap : (steps.map Step.id).get ⟨j, by simpa using hj⟩ =
      (steps.map Step.id).get ⟨k, by simpa using hk⟩ := by
    simp only [List.get_eq_getElem, List.getElem_map]
    exact h
  exact congrArg Fin.val ((List.Nodup.get_inj_iff hids).mp hmap)

theorem invCounts_init (min max : Int) (steps : List Step)
    (hpos : ∀ st ∈ steps, 1 ≤ st.count) :
    InvCounts steps (initializeNumbers min max steps mountState) := by
  have hready : ∀ h : 0 < steps.length, 1 ≤ (steps.getD 0 defaultStep).count :=
    fun h => hpos _ (getD_mem_of_lt h)
  unfold initializeNumbers
  split <;>
    exact
      { past := by intro j hj _; simp [mountState] at hj
        future := by intro j _ _; simp [mountState, histCount]
        currentTrans := by intro _ habs; simp [mountState] at habs
        currentReady := by
          intro hlen _
          have h1 := hready (by simpa [mountState] using hlen)
          have h2 : histCount ([] : List WinRecord)
              (steps.getD 0 defaultStep).id < (steps.getD 0 defaultStep).count := by
            have h0 : histCount ([] : List WinRecord)
                (steps.getD 0 defaultStep).id = 0 := rfl
            omega
          exact h2 }

theorem invCounts_spinClick (steps : List Step) {s : EngineState}
    (hc : InvCounts steps s) : InvCounts steps (spinClick steps s) := by
  rcases spinClick_cases steps s with heq | ⟨_, _, _, _, heq⟩ <;> rw [heq]
  · exact hc
  · exact ⟨hc.past, hc.future, hc.currentTrans, hc.currentReady⟩

theorem invCounts_tickFire (steps : List Step) (j : Nat) {s : EngineState}
    (hc : InvCounts steps s) : InvCounts steps (tickFire j s) :=
  ⟨hc.past, hc.future, hc.currentTrans, hc.currentReady⟩

theorem invCounts_stopSpin (steps : List Step) (r now : Nat) {s : EngineState}
    (hids : (steps.map Step.id).Nodup)
    (hstr : InvStruct steps s) (hc : InvCounts steps s)
    (hps : s.pendingStop = true) :
    InvCounts steps (stopSpin steps r now s) := by
  have htr : s.isTransitioning = false := hstr.pendStopTrans hps
  have hidx : s.currentStepIndex < steps.length := hstr.pendStopIdx hps
  have hcur : histCount s.history (steps.getD s.currentStepIndex defaultStep).id <
      (steps.getD s.currentStepIndex defaultStep).count := hc.currentReady hidx htr
  have hcount : ∀ j, j < steps.length → j ≠ s.currentStepIndex →
      histCount (stopSpinBase steps r now s).history (steps.getD j defaultStep).id =
        histCount s.history (steps.getD j defaultStep).id := by
    intro j hj hne
    rw [stopSpinBase_history, histCount_cons,
      if_neg (getD_id_ne hids hidx hj (fun h => hne h.symm)), Nat.add_zero]
  have hcountCur : histCount (stopSpinBase steps r now s).history
      (steps.getD s.currentStepIndex defaultStep).id =
        histCount s.history (steps.getD s.currentStepIndex defaultStep).id + 1 := by
    rw [stopSpinBase_history, histCount_cons, if_pos rfl]
  unfold stopSpin
  split
  case isTrue hcond =>
    refine ⟨?_, ?_, ?_, ?_⟩
    · intro j hj hjlen
      have hj' : j < s.currentStepIndex := hj
      show histCount (stopSpinBase steps r now s).history
        (steps.getD j defaultStep).id ≤ (steps.getD j defaultStep).count
      rw [hcount j hjlen (by omega)]
      exact hc.past j hj' hjlen
    · intro j hj hjlen
      have hj' : s.currentStepIndex < j := hj
      show histCount (stopSpinBase steps r now s).history
        (steps.getD j defaultStep).id = 0
      rw [hcount j hjlen (by omega)]
      exact hc.future j hj' hjlen
    · intro hlen _
      show histCount (stopSpinBase steps r now s).history
        (steps.getD s.currentStepIndex defaultStep).id ≤
          (steps.getD s.currentStepIndex defaultStep).count
      rw [hcountCur]
      omega
    · intro _ habs
      exact Bool.noConfusion habs
  case isFalse hcond =>
    refine ⟨?_, ?_, ?_, ?_⟩
    · intro j hj hjlen
      have hj' : j < s.currentStepIndex := hj
      show histCount (stopSpinBase steps r now s).history
        (steps.getD j defaultStep).id ≤ (steps.getD j defaultStep).count
      rw [hcount j hjlen (by omega)]
      exact hc.past j hj' hjlen
    · intro j hj hjlen
      have hj' : s.currentStepIndex < j := hj
      show histCount (stopSpinBase steps r now s).history
        (steps.getD j defaultStep).id = 0
      rw [hcount j hjlen (by omega)]
      exact hc.future j hj' hjlen
    · intro _ habs
      have habs' : s.isTransitioning = true := habs
      rw [htr] at habs'
      cases habs'
    · intro hlen _
      show histCount (stopSpinBase steps r now s).history
        (steps.getD s.currentStepIndex defaultStep).id <
          (steps.getD s.currentStepIndex defaultStep).count
      rw [hcountCur]
      omega

theorem invCounts_transitionFire (steps : List Step) (i : Nat) {s : EngineState}
    (hpos : ∀ st ∈ steps, 1 ≤ st.count)
    (hstr : InvStruct steps s) (hc : InvCounts steps s)
    (hp : s.pendingTransition = some i) :
    InvCounts steps (transitionFire steps i s) := by
  have hi : i = s.currentStepIndex := hstr.pendTransIdx i hp
  have hlt : s.currentStepIndex < steps.length := hstr.pendTransLt i hp
  have htr : s.isTransitioning = true := by rw [hstr.transIff, hp]; rfl
  subst hi
  have key : InvCounts steps
      { s with currentStepIndex := s.currentStepIndex + 1,
               isTransitioning := false, pendingTransition := none } := by
    refine ⟨?_, ?_, ?_, ?_⟩
    · intro j hj hjlen
      have hj' : j < s.currentStepIndex + 1 := hj
      show histCount s.history (steps.getD j defaultStep).id ≤
        (steps.getD j defaultStep).count
      rcases Nat.lt_or_ge j s.currentStepIndex with h' | h'
      · exact hc.past j h' hjlen
      · have hje : j = s.currentStepIndex := by omega
        subst hje
        exact hc.currentTrans hjlen htr
    · intro j hj hjlen
      have hj' : s.currentStepIndex + 1 < j := hj
      show histCount s.history (steps.getD j defaultStep).id = 0
      exact hc.future j (by omega) hjlen
    · intro _ habs
      exact Bool.noConfusion habs
    · intro hlen _
      have hlen' : s.currentStepIndex + 1 < steps.length := hlen
      show histCount s.history
          (steps.getD (s.currentStepIndex + 1) defaultStep).id <
        (steps.getD (s.currentStepIndex + 1) defaultStep).count
      have h0 : histCount s.history
          (steps.getD (s.currentStepIndex + 1) defaultStep).id = 0 :=
        hc.future _ (by omega) hlen'
      have h1 : 1 ≤ (steps.getD (s.currentStepIndex + 1) defaultStep).count :=
        hpos _ (getD_mem_of_lt hlen')
      omega
  unfold transitionFire
  split
  · exact key
  · exact key

theorem invCounts_reachable {min max : Int} {steps : List Step} {s : EngineState}
    (hpos : ∀ st ∈ steps, 1 ≤ st.count) (hids : (steps.map Step.id).Nodup)
    (h : Reachable min max steps s) : InvCounts steps s := by
  induction h with
  | init hok => exact invCounts_init min max steps hpos
  | step hreach hstep ih =>
    cases hstep with
    | spin => exact invCounts_spinClick steps ih
    | commit r now hps _ =>
      exact invCounts_stopSpin steps r now hids (invStruct_reachable hreach) ih hps
    | tick j _ _ => exact invCounts_tickFire steps j ih
    | roundTimeout i hp =>
      exact invCounts_transitionFire steps i hpos (invStruct_reachable hreach) ih hp

/-! Behaviour of single operations -/

theorem spinClick_accept (steps : List Step) {s : EngineState}
    (h1 : s.isSpinning = false) (h2 : s.isTransitioning = false)
    (h3 : s.availableNumbers ≠ []) (h4 : s.currentStepIndex < steps.length) :
    spinClick steps s =
      { s with isSpinning := true, winner := none,
               pendingTick := true, pendingStop := true } := by
  have hlen : ¬s.availableNumbers.length = 0 := by
    simpa [List.length_eq_zero] using h3
  have hd : spinDisabled steps s = false := by
    simp [spinDisabled, h1, h2, hlen, Nat.not_le.mpr h4]
  unfold spinClick
  rw [hd, if_neg Bool.false_ne_true]
  unfold handleSpin
  rw [if_neg hlen, if_neg (Nat.not_le.mpr h4), if_neg (by simp [h2])]

theorem spinClick_reject (steps : List Step) {s : EngineState}
    (h : spinDisabled steps s = true) : spinClick steps s = s := by
  unfold spinClick
  rw [h, if_pos rfl]

theorem stopSpin_currentStepIndex (steps : List Step) (r now : Nat)
    (s : EngineState) :
    (stopSpin steps r now s).currentStepIndex = s.currentStepIndex := by
  unfold stopSpin
  split <;> rfl

theorem stopSpin_history_eq (steps : List Step) (r now : Nat) (s : EngineState) :
    (stopSpin steps r now s).history = (stopSpinBase steps r now s).history := by
  unfold stopSpin
  split <;> rfl

theorem stopSpin_pool_eq (steps : List Step) (r now : Nat) (s : EngineState) :
    (stopSpin steps r now s).availableNumbers =
      (stopSpinBase steps r now s).availableNumbers := by
  unfold stopSpin
  split <;> rfl

theorem stopSpin_histCount_current (steps : List Step) (r now : Nat)
    (s : EngineState) :
    histCount (stopSpin steps r now s).history
        (steps.getD s.currentStepIndex defaultStep).id =
      histCount s.history (steps.getD s.currentStepIndex defaultStep).id + 1 := by
  rw [stopSpin_history_eq, stopSpinBase_history, histCount_cons, if_pos rfl]

theorem stopSpin_completes (steps : List Step) (r now : Nat) (s : EngineState)
    (hcond : (steps.getD s.currentStepIndex defaultStep).count ≤
      histCount s.history (steps.getD s.currentStepIndex defaultStep).id + 1) :
    (stopSpin steps r now s).isTransitioning = true ∧
    (stopSpin steps r now s).pendingTransition = some s.currentStepIndex := by
  unfold stopSpin
  rw [if_pos hcond]
  exact ⟨rfl, rfl⟩

theorem spinClick_currentStepIndex (steps : List Step) (s : EngineState) :
    (spinClick steps s).currentStepIndex = s.currentStepIndex := by
  rcases spinClick_cases steps s with heq | ⟨_, _, _, _, heq⟩ <;> rw [heq]

theorem transitionFire_currentStepIndex (steps : List Step) (i : Nat)
    (s : EngineState) (hi : i = s.currentStepIndex) :
    (transitionFire steps i s).currentStepIndex = s.currentStepIndex + 1 := by
  unfold transitionFire
  split
  · show i + 1 = s.currentStepIndex + 1
    omega
  · rfl

theorem transitionFire_isTransitioning (steps : List Step) (i : Nat)
    (s : EngineState) :
    (transitionFire steps i s).isTransitioning = false := by
  unfold transitionFire
  split <;> rfl

/-! Concrete configurations and runs used to instantiate the theorems -/

theorem exInit_reachable : Reachable 1 2 exSteps exInit :=
  Reachable.init (by decide)

theorem exSpin_reachable : Reachable 1 2 exSteps exSpin :=
  Reachable.step exInit_reachable (GameStep.spin exInit)

theorem exCommit_reachable : Reachable 1 2 exSteps exCommit :=
  Reachable.step exSpin_reachable
    (GameStep.commit exSpin 0 5 (by decide) (by decide))

/-! The claims -/

/-- C1: A `startSpin` intent (a SPIN button click — a disabled button fires
no `onClick`) is accepted exactly when the engine is not spinning, not
transitioning, the pool is non-empty, and a current round exists
(`currentRoundIndex < roundCount`); every invalid call, including one made
while a spin is already active, is a benign no-op leaving the engine state
unchanged. -/
theorem C1_startSpin_guards (steps : List Step) (s : EngineState) :
    (s.isSpinning = false ∧ s.isTransitioning = false ∧
        s.availableNumbers ≠ [] ∧ s.currentStepIndex < steps.length →
      spinClick steps s =
        { s with isSpinning := true, winner := none,
                 pendingTick := true, pendingStop := true }) ∧
    ((s.isSpinning = true ∨ s.isTransitioning = true ∨
        s.availableNumbers = [] ∨ steps.length ≤ s.currentStepIndex) →
      spinClick steps s = s) := by
  constructor
  · rintro ⟨h1, h2, h3, h4⟩
    exact spinClick_accept steps h1 h2 h3 h4
  · intro h
    apply spinClick_reject
    simp only [spinDisabled, Bool.or_eq_true, beq_iff_eq, decide_eq_true_eq,
      List.length_eq_zero]
    tauto

/-- Witness for C1: over the pool `[1, 2]` with one round, the click on the
freshly initialised state is accepted, and a second click while spinning is a
no-op. -/
theorem C1_startSpin_guards_witness :
    spinClick exSteps exInit =
      { exInit with isSpinning := true, winner := none,
                    pendingTick := true, pendingStop := true } ∧
    spinClick exSteps exSpin = exSpin :=
  ⟨(C1_startSpin_guards exSteps exInit).1 ⟨by decide, by decide, by decide, by decide⟩,
   (C1_startSpin_guards exSteps exSpin).2 (Or.inl (by decide))⟩

/-- C4: `Initialize(min, max, rounds)` fails exactly when the summed
required counts exceed `max - min + 1`; on failure the entire prior state is
untouched; on success the pool is all integers in `[min, max]`, the history is
cleared, the round index is `0`, and the displayed value is the `"?"`
placeholder. -/
theorem C4_initialize_spec (min max : Int) (steps : List Step) (s : EngineState) :
    (insufficientPool min max steps = true ↔
      totalAvailable min max < (totalWinnersNeeded steps : Int)) ∧
    (insufficientPool min max steps = true →
      initializeNumbers min max steps s = s) ∧
    (insufficientPool min max steps = false →
      (∀ n : Int, n ∈ (initializeNumbers min max steps s).availableNumbers ↔
        min ≤ n ∧ n ≤ max) ∧
      (initializeNumbers min max steps s).history = [] ∧
      (initializeNumbers min max steps s).currentStepIndex = 0 ∧
      (initializeNumbers min max steps s).currentNumber = Display.placeholder ∧
      (initializeNumbers min max steps s).isTransitioning = false ∧
      (initializeNumbers min max steps s).winner = none) := by
  refine ⟨by simp [insufficientPool], fun h => by simp [initializeNumbers, h], fun h => ?_⟩
  refine ⟨fun n => ?_, ?_, ?_, ?_, ?_, ?_⟩ <;>
    simp [initializeNumbers, h, mem_rangePool]

/-- Witness for C4: the range `[1, 3]` cannot host one round of 5 winners, and
the rejection leaves even a mid-game state untouched; the range `[1, 2]` with
one round of 1 succeeds and builds the pool `[1, 2]`. -/
theorem C4_initialize_spec_witness :
    insufficientPool 1 3 rejSteps = true ∧
    initializeNumbers 1 3 rejSteps exCommit = exCommit ∧
    (2 ∈ (initializeNumbers 1 2 exSteps mountState).availableNumbers ↔
      (1 : Int) ≤ 2 ∧ (2 : Int) ≤ 2) ∧
    (initializeNumbers 1 2 exSteps mountState).history = [] :=
  ⟨by decide,
   (C4_initialize_spec 1 3 rejSteps exCommit).2.1 (by decide),
   ((C4_initialize_spec 1 2 exSteps mountState).2.2 (by decide)).1 2,
   ((C4_initialize_spec 1 2 exSteps mountState).2.2 (by decide)).2.1⟩

/-- C8: Reset is the same handler as Initialize (`initializeNumbers`), and
for a configuration accepted by the pool-size check it is idempotent: one and
two Resets in a row yield the same state, with empty history, the full range
pool, round index `0`, and no transition in progress. -/
theorem C8_reset_idempotent (min max : Int) (steps : List Step) (s : EngineState)
    (h : insufficientPool min max steps = false) :
    resetGame min max steps s = initializeNumbers min max steps s ∧
    resetGame min max steps (resetGame min max steps s) =
      resetGame min max steps s ∧
    (resetGame min max steps s).history = [] ∧
    (resetGame min max steps s).availableNumbers = rangePool min max ∧
    (resetGame min max steps s).currentStepIndex = 0 ∧
    (resetGame min max steps s).isTransitioning = false := by
  refine ⟨rfl, ?_, ?_, ?_, ?_, ?_⟩ <;>
    simp [resetGame, initializeNumbers, h]

/-- Witness for C8 on the mid-game state after one committed draw. -/
theorem C8_reset_idempotent_witness :
    resetGame 1 2 exSteps exCommit = initializeNumbers 1 2 exSteps exCommit ∧
    resetGame 1 2 exSteps (resetGame 1 2 exSteps exCommit) =
      resetGame 1 2 exSteps exCommit ∧
    (resetGame 1 2 exSteps exCommit).history = [] ∧
    (resetGame 1 2 exSteps exCommit).availableNumbers = rangePool 1 2 ∧
    (resetGame 1 2 exSteps exCommit).currentStepIndex = 0 ∧
    (resetGame 1 2 exSteps exCommit).isTransitioning = false :=
  C8_reset_idempotent 1 2 exSteps exCommit (by decide)

/-- C10: `initializeNumbers` has no dedicated `min <= max` check: with an
inverted range and any positive total requirement it is rejected purely
because the computed pool size `max - min + 1` is non-positive and hence below
the requirement — the same insufficient-pool rejection — and no state
changes. -/
theorem C10_inverted_range (min max : Int) (steps : List Step) (s : EngineState)
    (hlt : max < min) (hpos : 0 < totalWinnersNeeded steps) :
    totalAvailable min max ≤ 0 ∧
    insufficientPool min max steps = true ∧
    initializeNumbers min max steps s = s := by
  have h2 : insufficientPool min max steps = true := by
    unfold insufficientPool totalAvailable
    simp only [decide_eq_true_eq]
    omega
  exact ⟨by unfold totalAvailable; omega, h2, by simp [initializeNumbers, h2]⟩

/-- Witness for C10: the inverted range `[5, 3]` with one round of one
winner. -/
theorem C10_inverted_range_witness :
    totalAvailable 5 3 ≤ 0 ∧
    insufficientPool 5 3 exSteps = true ∧
    initializeNumbers 5 3 exSteps exCommit = exCommit :=
  C10_inverted_range 5 3 exSteps exCommit (by decide) (by decide)

/-- C2: Conservation: a commit from a non-empty pool (random index in
range) of a reachable state shrinks the pool by exactly one, and the element
removed is exactly the number recorded as the committed winner (the head of
the new history and the new `winner`). -/
theorem C2_commit_conservation (min max : Int) (steps : List Step) (r now : Nat)
    (s : EngineState) (hr : Reachable min max steps s)
    (hlen : r < s.availableNumbers.length) :
    (stopSpin steps r now s).availableNumbers.length + 1 =
      s.availableNumbers.length ∧
    ((stopSpin steps r now s).history.headD defaultRecord).number =
      s.availableNumbers.getD r 0 ∧
    (stopSpin steps r now s).availableNumbers =
      s.availableNumbers.erase (s.availableNumbers.getD r 0) ∧
    s.availableNumbers.getD r 0 ∈ s.availableNumbers ∧
    s.availableNumbers.getD r 0 ∉ (stopSpin steps r now s).availableNumbers := by
  have hnd : s.availableNumbers.Nodup := (invNum_reachable hr).poolNodup
  have hw : s.availableNumbers.getD r 0 ∈ s.availableNumbers := getD_mem_of_lt hlen
  have hpool : (stopSpin steps r now s).availableNumbers =
      s.availableNumbers.erase (s.availableNumbers.getD r 0) := by
    rw [stopSpin_pool_eq, stopSpinBase_pool, filter_ne_eq_erase hnd]
  have hhead : ((stopSpin steps r now s).history.headD defaultRecord).number =
      s.availableNumbers.getD r 0 := by
    rw [stopSpin_history_eq, stopSpinBase_history]
    rfl
  refine ⟨?_, hhead, hpool, hw, ?_⟩
  · rw [hpool, List.length_erase_add_one hw]
  · rw [hpool]
    exact hnd.not_mem_erase

/-- Witness for C2: committing on the spinning state over the pool `[1, 2]`
removes the drawn `1` and records it. -/
theorem C2_commit_conservation_witness :
    exCommit.availableNumbers.length + 1 = exSpin.availableNumbers.length ∧
    (exCommit.history.headD defaultRecord).number =
      exSpin.availableNumbers.getD 0 0 ∧
    exCommit.availableNumbers =
      exSpin.availableNumbers.erase (exSpin.availableNumbers.getD 0 0) ∧
    exSpin.availableNumbers.getD 0 0 ∈ exSpin.availableNumbers ∧
    exSpin.availableNumbers.getD 0 0 ∉ exCommit.availableNumbers :=
  C2_commit_conservation 1 2 exSteps 0 5 exSpin exSpin_reachable (by decide)

/-- C3: In every reachable state of a game, the numbers of the history's
records are pairwise distinct, and a committed number is no longer in the pool
— so it can never be drawn and committed again later in the game. -/
theorem C3_history_unique (min max : Int) (steps : List Step) (s : EngineState)
    (hr : Reachable min max steps s) :
    (s.history.map WinRecord.number).Nodup ∧
    ∀ rec ∈ s.history, rec.number ∉ s.availableNumbers := by
  have h := invNum_reachable hr
  exact ⟨h.histNodup,
    fun rec hmem => h.disj rec.number (List.mem_map_of_mem _ hmem)⟩

/-- Witness for C3 at the state after one committed draw. -/
theorem C3_history_unique_witness :
    (exCommit.history.map WinRecord.number).Nodup :=
  (C3_history_unique 1 2 exSteps exCommit exCommit_reachable).1

/-- C5: In every reachable state of a plan obeying the data model — unique
round ids and positive required counts — every round's history count is at most
its required count. -/
theorem C5_round_capacity (min max : Int) (steps : List Step) (s : EngineState)
    (hpos : ∀ st ∈ steps, 1 ≤ st.count) (hids : (steps.map Step.id).Nodup)
    (hr : Reachable min max steps s) :
    ∀ rd ∈ steps, histCount s.history rd.id ≤ rd.count := by
  intro rd hrd
  obtain ⟨j, hj, rfl⟩ := List.mem_iff_getElem.mp hrd
  have hc := invCounts_reachable hpos hids hr
  have hgd : steps.getD j defaultStep = steps[j] := getD_eq_getElem hj
  rcases Nat.lt_trichotomy j s.currentStepIndex with h | h | h
  · have := hc.past j h hj
    rwa [hgd] at this
  · subst h
    cases htr : s.isTransitioning with
    | true =>
      have := hc.currentTrans hj htr
      rwa [hgd] at this
    | false =>
      have := hc.currentReady hj htr
      rw [hgd] at this
      omega
  · have h0 := hc.future j h hj
    rw [hgd] at h0
    omega

/-- Witness for C5: after the single commit of the one-round game, the round
holds exactly its one required winner. -/
theorem C5_round_capacity_witness :
    histCount exCommit.history 1 ≤ 1 :=
  C5_round_capacity 1 2 exSteps exCommit (by decide) (by decide)
    exCommit_reachable { id := 1, name := "Round 1", count := 1 } (by decide)

/-- C6: Along every engine step from a reachable state the round index
never decreases and moves by at most one; it moves up (by exactly one) only
out of a transitioning state whose current round's history count has reached
its required count, landing no further than the `roundCount` sentinel with the
transition flag cleared; and whenever a round transition is pending, firing it
advances the index by exactly one. -/
theorem C6_round_monotone (min max : Int) (steps : List Step)
    (s t : EngineState) (i : Nat)
    (hr : Reachable min max steps s) (hstep : GameStep steps s t) :
    s.currentStepIndex ≤ t.currentStepIndex ∧
    t.currentStepIndex ≤ s.currentStepIndex + 1 ∧
    (t.currentStepIndex = s.currentStepIndex + 1 →
      s.isTransitioning = true ∧
      s.currentStepIndex < steps.length ∧
      (steps.getD s.currentStepIndex defaultStep).count ≤
        histCount s.history (steps.getD s.currentStepIndex defaultStep).id ∧
      t.isTransitioning = false ∧
      t.currentStepIndex ≤ steps.length) ∧
    (s.pendingTransition = some i →
      (transitionFire steps i s).currentStepIndex = s.currentStepIndex + 1) := by
  have hstr := invStruct_reachable hr
  have hfire : s.pendingTransition = some i →
      (transitionFire steps i s).currentStepIndex = s.currentStepIndex + 1 :=
    fun hp => transitionFire_currentStepIndex steps i s (hstr.pendTransIdx i hp)
  cases hstep with
  | spin =>
    rw [spinClick_currentStepIndex]
    exact ⟨Nat.le_refl _, by omega, fun h => absurd h (by omega), hfire⟩
  | commit r now hps hrlen =>
    rw [stopSpin_currentStepIndex]
    exact ⟨Nat.le_refl _, by omega, fun h => absurd h (by omega), hfire⟩
  | tick j _ _ =>
    have : (tickFire j s).currentStepIndex = s.currentStepIndex := rfl
    rw [this]
    exact ⟨Nat.le_refl _, by omega, fun h => absurd h (by omega), hfire⟩
  | roundTimeout k hp =>
    have hk : k = s.currentStepIndex := hstr.pendTransIdx k hp
    have hlt : s.currentStepIndex < steps.length := hstr.pendTransLt k hp
    have htr : s.isTransitioning = true := by rw [hstr.transIff, hp]; rfl
    have hcnt := hstr.pendTransCount k hp
    rw [hk] at hcnt
    have hidx := transitionFire_currentStepIndex steps k s hk
    rw [hidx]
    refine ⟨by omega, by omega, fun _ => ?_, hfire⟩
    exact ⟨htr, hlt, hcnt, transitionFire_isTransitioning steps k s, by omega⟩

/-- Witness for C6: firing the pending transition of the completed one-round
game advances the index from `0` to the sentinel `1` and clears the flag. -/
theorem C6_round_monotone_witness :
    exCommit.currentStepIndex ≤
      (transitionFire exSteps 0 exCommit).currentStepIndex ∧
    (transitionFire exSteps 0 exCommit).currentStepIndex ≤
      exCommit.currentStepIndex + 1 ∧
    ((transitionFire exSteps 0 exCommit).currentStepIndex =
        exCommit.currentStepIndex + 1 →
      exCommit.isTransitioning = true ∧
      exCommit.currentStepIndex < exSteps.length ∧
      (exSteps.getD exCommit.currentStepIndex defaultStep).count ≤
        histCount exCommit.history
          (exSteps.getD exCommit.currentStepIndex defaultStep).id ∧
      (transitionFire exSteps 0 exCommit).isTransitioning = false ∧
      (transitionFire exSteps 0 exCommit).currentStepIndex ≤ exSteps.length) ∧
    (exCommit.pendingTransition = some 0 →
      (transitionFire exSteps 0 exCommit).currentStepIndex =
        exCommit.currentStepIndex + 1) :=
  C6_round_monotone 1 2 exSteps exCommit (transitionFire exSteps 0 exCommit) 0
    exCommit_reachable (GameStep.roundTimeout exCommit 0 (by decide))

/-- C7 counterexample: A round with `count == 0` is *not* auto-completed
with zero draws: right after initialisation onto it the engine is not
transitioning, nothing is pending, the index is still `0`, and the SPIN button
is enabled; the round only completes through a committed draw — and that
commit records one winner into the supposedly zero-draw round. -/
theorem C7_zero_round_counterexample :
    zInit.isTransitioning = false ∧
    zInit.pendingTransition = none ∧
    zInit.currentStepIndex = 0 ∧
    spinDisabled zeroSteps zInit = false ∧
    histCount zCommit.history 1 = 1 ∧
    zCommit.history ≠ [] ∧
    zCommit.isTransitioning = true ∧
    zCommit.pendingTransition = some 0 := by
  decide

/-- C7 amended: When the current round has `count == 0` (engine idle, pool
non-empty, round in range), the spin intent is still accepted, and the
resulting commit both records exactly one winner into the zero-count round and
triggers the round transition. -/
theorem C7_zero_round_amended (steps : List Step) (r now : Nat) (s : EngineState)
    (h0 : (steps.getD s.currentStepIndex defaultStep).count = 0)
    (h1 : s.isSpinning = false) (h2 : s.isTransitioning = false)
    (h3 : s.availableNumbers ≠ []) (h4 : s.currentStepIndex < steps.length) :
    spinClick steps s =
      { s with isSpinning := true, winner := none,
               pendingTick := true, pendingStop := true } ∧
    histCount (stopSpin steps r now (spinClick steps s)).history
        (steps.getD s.currentStepIndex defaultStep).id =
      histCount s.history (steps.getD s.currentStepIndex defaultStep).id + 1 ∧
    (stopSpin steps r now (spinClick steps s)).isTransitioning = true ∧
    (stopSpin steps r now (spinClick steps s)).pendingTransition =
      some s.currentStepIndex := by
  have hacc := spinClick_accept steps h1 h2 h3 h4
  refine ⟨hacc, ?_, ?_, ?_⟩ <;> rw [hacc]
  · exact stopSpin_histCount_current steps r now _
  · refine (stopSpin_completes steps r now _ ?_).1
    show (steps.getD s.currentStepIndex defaultStep).count ≤
      histCount s.history (steps.getD s.currentStepIndex defaultStep).id + 1
    omega
  · refine (stopSpin_completes steps r now _ ?_).2
    show (steps.getD s.currentStepIndex defaultStep).count ≤
      histCount s.history (steps.getD s.currentStepIndex defaultStep).id + 1
    omega

/-- Witness for the amended C7 on the zero-count round over the pool `[1, 1]`. -/
theorem C7_zero_round_amended_witness :
    spinClick zeroSteps zInit =
      { zInit with isSpinning := true, winner := none,
                   pendingTick := true, pendingStop := true } ∧
    histCount (stopSpin zeroSteps 0 7 (spinClick zeroSteps zInit)).history
        (zeroSteps.getD zInit.currentStepIndex defaultStep).id =
      histCount zInit.history
        (zeroSteps.getD zInit.currentStepIndex defaultStep).id + 1 ∧
    (stopSpin zeroSteps 0 7 (spinClick zeroSteps zInit)).isTransitioning = true ∧
    (stopSpin zeroSteps 0 7 (spinClick zeroSteps zInit)).pendingTransition =
      some zInit.currentStepIndex :=
  C7_zero_round_amended zeroSteps 0 7 zInit (by decide) (by decide) (by decide)
    (by decide) (by decide)

/-- C9: The cancellation contract is *not* honoured by the code: after the
one-round game completes, a 2000 ms round-transition timeout is pending;
re-running `initializeNumbers` (the Reset handler) cancels nothing, so the
stale timeout survives into the fresh game and, when it fires, advances the
new game's `currentStepIndex` from `0` to `1` with an empty history — a stale
round advance mutating the re-initialised state.  Likewise a reset taken
mid-spin leaves the 120 ms tick interval and the 3000 ms spin timeout pending
(a stale commit), and even the unmount cleanup clears only those two, never
the transition timeout. -/
theorem C9_stale_timer_bug :
    exCommit.pendingTransition = some 0 ∧
    (initializeNumbers 1 2 exSteps exCommit).pendingTransition = some 0 ∧
    (initializeNumbers 1 2 exSteps exCommit).currentStepIndex = 0 ∧
    (initializeNumbers 1 2 exSteps exCommit).history = [] ∧
    (transitionFire exSteps 0
        (initializeNumbers 1 2 exSteps exCommit)).currentStepIndex = 1 ∧
    (transitionFire exSteps 0
        (initializeNumbers 1 2 exSteps exCommit)).history = [] ∧
    exSpin.pendingTick = true ∧
    exSpin.pendingStop = true ∧
    (initializeNumbers 1 2 exSteps exSpin).pendingTick = true ∧
    (initializeNumbers 1 2 exSteps exSpin).pendingStop = true ∧
    (teardownCleanup exCommit).pendingTransition = some 0 := by
  decide

end LuckyDraw
